import Mathlib

/-!
Verification development for the interactive configuration CLI
(`configCli.py`, `get_commit_scripts.py`, `validators.py`).

The configuration data model (spec §3): a configuration tree maps string
keys to values, where a value is either a nested tree (a Python dict,
insertion-ordered) or a tombstone (Python `None`).  We embed Python dicts
as insertion-ordered association lists: assignment to an existing key
updates in place, assignment to a fresh key appends, `del` removes the
binding.  The running and candidate configurations are both such trees.
-/

inductive Val where
  | tomb : Val
  | node : List (String × Val) → Val
deriving Repr

mutual

def decEqVal : (a b : Val) → Decidable (a = b)
  | .tomb, .tomb => .isTrue rfl
  | .tomb, .node _ => .isFalse (fun h => Val.noConfusion h)
  | .node _, .tomb => .isFalse (fun h => Val.noConfusion h)
  | .node xs, .node ys =>
      match decEqValList xs ys with
      | .isTrue h => .isTrue (by rw [h])
      | .isFalse h => .isFalse (fun hh => h (by injection hh))

def decEqValList : (xs ys : List (String × Val)) → Decidable (xs = ys)
  | [], [] => .isTrue rfl
  | [], _ :: _ => .isFalse (fun h => List.noConfusion h)
  | _ :: _, [] => .isFalse (fun h => List.noConfusion h)
  | (k1, v1) :: xs, (k2, v2) :: ys =>
      match String.decEq k1 k2 with
      | .isFalse h => .isFalse (fun hh => by
          injection hh with h1 h2
          exact h (congrArg Prod.fst h1))
      | .isTrue h1 =>
        match decEqVal v1 v2 with
        | .isFalse h => .isFalse (fun hh => by
            injection hh with hh1 hh2
            exact h (congrArg Prod.snd hh1))
        | .isTrue h2 =>
          match decEqValList xs ys with
          | .isTrue h3 => .isTrue (by rw [h1, h2, h3])
          | .isFalse h => .isFalse (fun hh => by
              injection hh with hh1 hh2
              exact h hh2)

end

instance : DecidableEq Val := decEqVal

instance : DecidableEq (List (String × Val)) := decEqValList

abbrev Config := List (String × Val)

/-- `key in d` for a Python dict. -/
def hasKey (c : Config) (k : String) : Bool :=
  c.any (fun p => p.1 == k)

/-- `d[key]` lookup (first binding; Python dicts have unique keys). -/
def getVal (c : Config) (k : String) : Option Val :=
  (c.find? (fun p => p.1 == k)).map (fun p => p.2)

/-- `d[key] = v`: update in place if the key exists, else append. -/
def setKey (c : Config) (k : String) (v : Val) : Config :=
  if hasKey c k then c.map (fun p => if p.1 == k then (k, v) else p)
  else c ++ [(k, v)]

/-- `del d[key]` (no-op when the key is absent; Python raises, but every
call site in the source guards with `if key in d`). -/
def delKey (c : Config) (k : String) : Config :=
  c.filter (fun p => p.1 != k)

mutual

/-- Well-formedness of a tree as a Python dict image: keys are unique at
every level.  Every dict the program builds satisfies this. -/
def WF : Config → Bool
  | [] => true
  | (k, v) :: rest => !(hasKey rest k) && WFv v && WF rest

def WFv : Val → Bool
  | Val.tomb => true
  | Val.node sub => WF sub

end

/-- `get_nested_value(d, path_parts)` (configCli.py lines 86-93): walks the
path; returns the subtree when the path leads to a dict, and Python `None`
(here `none`) when a segment is missing, a tombstone is hit mid-path, or
the final value is itself a tombstone (Python cannot distinguish a stored
`None` from absence here). -/
def get_nested_value (c : Config) : List String → Option Config
  | [] => some c
  | p :: rest =>
      match getVal c p with
      | some (Val.node sub) => get_nested_value sub rest
      | _ => none

/-- Key-path membership: the path exists in the tree as a chain of keys,
whatever the final value (tombstone included).  This is the plain
tree-shape notion of "path present". -/
def pathMem (c : Config) : List String → Bool
  | [] => true
  | p :: rest =>
      match getVal c p with
      | some (Val.node sub) => pathMem sub rest
      | some Val.tomb => rest.isEmpty
      | none => false

example : hasKey [("a", Val.tomb)] "a" = true := by decide
example : get_nested_value [("a", Val.node [("b", Val.node [])])] ["a", "b"] = some [] := by decide
example : get_nested_value [("a", Val.node [("b", Val.tomb)])] ["a", "b"] = none := by decide
example : pathMem [("a", Val.node [("b", Val.tomb)])] ["a", "b"] = true := by decide

/-!
## Command parsing (`parse_config_command`, configCli.py lines 108-173)

The schema walk inside `parse_config_command` only validates tag tokens
(raising `ValidationError`); it never influences the dictionary the
function returns.  We embed the dictionary construction for the `set` and
`delete` actions; theorems quantify over token lists that pass
validation.
-/

/-- The plain `set` chain: every segment becomes a nested dict, the leaf
an empty dict. -/
def chainSet : List String → Config
  | [] => []
  | [p] => [(p, Val.node [])]
  | p :: rest => [(p, Val.node (chainSet rest))]

/-- The `delete` chain: a tombstone (`None`) at the leaf.  Mirrors the
delete branch of the parser loop: the leaf is marked only when it is not
the first segment (`if i > 0`), so a single-segment delete yields an
empty dict. -/
def chainDel : List String → Config
  | [] => []
  | [p] => [(p, Val.tomb)]
  | p :: rest => [(p, Val.node (chainDel rest))]

/-- Build the chain of `pre` ending in `(leafKey, leafVal)`; used by the
next-hop special case (`current[part] = {}` then descend, finally
`current[prefix] = {...}`). -/
def buildSetChain (pre : List String) (leafKey : String) (leafVal : Val) : Config :=
  match pre with
  | [] => [(leafKey, leafVal)]
  | p :: rest => [(p, Val.node (buildSetChain rest leafKey leafVal))]

/-- `parse_config_command` for a `set` command (path tokens only, action
stripped).  The special case fires when `next-hop` occurs among the
tokens at first index `idx` with `idx < len - 1`: the route prefix is
`path_parts[idx - 1]` (Python indexing: for `idx = 0` this is the LAST
token), the chain is built from `path_parts[:idx - 1]`, and the leaf is
`{prefix: {"next-hop": {value: {}}}}`. -/
def parseSet (pp : List String) : Config :=
  match pp.indexOf? "next-hop" with
  | some idx =>
      if idx + 1 < pp.length then
        let prefixKey := if idx = 0 then pp.getLastD "" else pp.getD (idx - 1) ""
        let nhValue := pp.getD (idx + 1) ""
        let pre := if idx = 0 then pp.dropLast else pp.take (idx - 1)
        buildSetChain pre prefixKey
          (Val.node [("next-hop", Val.node [(nhValue, Val.node [])])])
      else chainSet pp
  | none => chainSet pp

/-- `parse_config_command` for a `delete` command. -/
def parseDelete (pp : List String) : Config :=
  match pp with
  | [] => []
  | [_] => []
  | p :: rest => [(p, Val.node (chainDel rest))]

/-!
## Merge (`update_config_dict`, configCli.py lines 175-225)

The functional rendering of the in-place mutation.  The `schema_node`,
`path` and `value_to_delete` parameters are dropped: `value_to_delete`
is `False` at every call site (and not propagated by the recursion), and
the schema is consulted only for the `multi` flag in the non-dict branch
(lines 222-225), which is unreachable for configuration trees whose
values are all dicts or `None`.

Per-entry behaviour on `existing`:
* value `None` (tombstone): `del existing[key]` when present;
* value a dict: ensure `existing[key]` is a dict (a tombstone or missing
  key becomes `{}`), then EITHER assign the whole subtree when it
  contains the key `"next-hop"` (line 214) OR merge recursively; finally
  `del existing[key]` when the result is empty (lines 220-221).
-/

mutual

/-- One iteration of the `for key, value in new_dict.items()` loop body. -/
def updateEntry (existing : Config) (k : String) (v : Val) : Config :=
  match v with
  | Val.tomb => delKey existing k
  | Val.node sub =>
      let base : Config :=
        match getVal existing k with
        | some (Val.node b) => b
        | _ => []
      let newSub := if hasKey sub "next-hop" then sub else update_config_dict base sub
      if newSub.isEmpty then delKey existing k else setKey existing k (Val.node newSub)

def update_config_dict (existing : Config) (c : Config) : Config :=
  match c with
  | [] => existing
  | (k, v) :: rest => update_config_dict (updateEntry existing k v) rest

end

-- A plain `set` stages nothing: the empty leaf is created and then
-- removed by the empty-dict cleanup, cascading up the chain.
example : update_config_dict [] (parseSet ["protocols", "bgp", "65000"]) = [] := by decide
-- The compound next-hop set survives (wholesale assignment skips the
-- recursion and its cleanup).
example : update_config_dict []
    (parseSet ["protocols", "static", "route", "10.0.0.0/24", "next-hop", "10.0.0.1"]) =
    [("protocols", Val.node [("static", Val.node [("route", Val.node
      [("10.0.0.0/24", Val.node [("next-hop", Val.node [("10.0.0.1", Val.node [])])])])])])] := by
  decide
-- Merging a tombstone deletes the path and prunes now-empty parents.
example : update_config_dict [("a", Val.node [("b", Val.node [])])]
    [("a", Val.node [("b", Val.tomb)])] = [] := by decide

/-!
## Delete handling (`key_exists_in_config`, `delete_from_config_dict`,
`handle_delete_command`, configCli.py lines 95-106, 227-254, 424-449)
-/

mutual

/-- `extract_path` (used by both `key_exists_in_config` and
`delete_from_config_dict`): repeatedly takes the FIRST key of the dict
while the value is a non-empty dict; a tombstone or empty dict stops the
walk (the tombstone's key is still collected). -/
def extractPath : Config → List String
  | [] => []
  | (k, v) :: _ => k :: extractPathVal v

def extractPathVal : Val → List String
  | Val.tomb => []
  | Val.node sub => extractPath sub

end

/-- `key_exists_in_config(config_dict, path_dict)`: the extracted path
resolves to something that `is not None`.  Note a tombstone stored at the
path makes this FALSE (Python returns the stored `None`). -/
def key_exists_in_config (c : Config) (pathDict : Config) : Bool :=
  (get_nested_value c (extractPath pathDict)).isSome

/-- `_delete_path` inside `delete_from_config_dict`: navigate to the
parent of the last key and delete it there.  Returns the success flag and
the updated dict.  Despite the source comment "Clean up empty parent
dictionaries" (line 249), no cleanup is performed. -/
def delPathB (c : Config) : List String → Bool × Config
  | [] => (false, c)
  | [last] => if hasKey c last then (true, delKey c last) else (false, c)
  | p :: rest =>
      match getVal c p with
      | some (Val.node sub) =>
          let r := delPathB sub rest
          (r.1, setKey c p (Val.node r.2))
      | _ => (false, c)

/-- `delete_from_config_dict(config_dict, delete_dict)`.  An empty
extracted path prints "Cannot delete – no path specified" and changes
nothing. -/
def delete_from_config_dict (c : Config) (deleteDict : Config) : Bool × Config :=
  delPathB c (extractPath deleteDict)

mutual

/-- One iteration of the `mark_for_deletion` loop body: a non-empty dict
value recurses (creating `{}` when the key is missing), anything else
(tombstone or empty dict) sets `config_dict[key] = None`.  `none` models
the `TypeError` Python raises when the existing value at the key is
`None` (recursing into a non-dict). -/
def markEntry (c : Config) (k : String) (v : Val) : Option Config :=
  match v with
  | Val.node (s :: ss) =>
      let c1 := if hasKey c k then c else c ++ [(k, Val.node [])]
      match getVal c1 k with
      | some (Val.node inner) =>
          match mark_for_deletion inner (s :: ss) with
          | some inner' => some (setKey c1 k (Val.node inner'))
          | none => none
      | _ => none

  | _ => some (setKey c k Val.tomb)

/-- `mark_for_deletion` inside `handle_delete_command`: writes the parsed
delete dict into the candidate, tombstone at the leaf, creating missing
intermediate dicts. -/
def mark_for_deletion (c : Config) (pathDict : Config) : Option Config :=
  match pathDict with
  | [] => some c
  | (k, v) :: rest =>
      match markEntry c k v with
      | some c' => mark_for_deletion c' rest
      | none => none

end

/-- Outcome of `handle_delete_command` as seen by the user:
`candBranch b` = the path was found in the candidate and
`delete_from_config_dict` ran (returning `b`), followed by the
"will take effect after commit" message; `tombstoned` = the path was
found in running only and was marked `None` in the candidate;
`pathNotFound` = the "path ... does not exist in either configuration"
error. -/
inductive DelOutcome where
  | candBranch : Bool → DelOutcome
  | tombstoned : DelOutcome
  | pathNotFound : DelOutcome
deriving DecidableEq, Repr

/-- `handle_delete_command(running_config, candidate_config,
parsed_command, parts)` (lines 424-449).  The running configuration is
only ever read, never written, so only the candidate is returned.
`none` models a `TypeError` escaping `mark_for_deletion`. -/
def handle_delete_command (running cand : Config) (parsedCommand : Config) :
    Option (DelOutcome × Config) :=
  if key_exists_in_config cand parsedCommand then
    let r := delete_from_config_dict cand parsedCommand
    some (DelOutcome.candBranch r.1, r.2)
  else if key_exists_in_config running parsedCommand then
    (mark_for_deletion cand parsedCommand).map (fun c => (DelOutcome.tombstoned, c))
  else
    some (DelOutcome.pathNotFound, cand)

-- Sanity: deleting a running-only path writes a tombstone chain.
example : handle_delete_command [("a", Val.node [("b", Val.node [])])] []
    (parseDelete ["a", "b"]) =
    some (DelOutcome.tombstoned, [("a", Val.node [("b", Val.tomb)])]) := by decide
-- Sanity: a single-segment delete parses to an empty dict, which makes
-- key_exists_in_config trivially true: the candidate branch is taken and
-- the inner delete fails ("no path specified"), with no state change.
example : handle_delete_command [] [] (parseDelete ["a"]) =
    some (DelOutcome.candBranch false, []) := by decide
-- Sanity: delete of a staged leaf retracts only the leaf, leaving the
-- intermediate chain behind.
example : handle_delete_command [] [("a", Val.node [("b", Val.node [("c", Val.node [])])])]
    (parseDelete ["a", "b", "c"]) =
    some (DelOutcome.candBranch true, [("a", Val.node [("b", Val.node [])])]) := by decide

/-!
## Commit (`handle_commit`, configCli.py lines 344-422)

`handle_commit` computes a merged configuration from running and
candidate (deletions first, then additions), renders it (the renderer
catches its own exceptions and returns a string; it never touches the
configuration trees), then UNCONDITIONALLY replaces running with the
merged tree and clears the candidate.  No external script is ever
invoked anywhere in the function (no call to `get_scripts_to_run`, no
`subprocess` use): the orchestration of §4.5 steps 3-5 of the spec has
no counterpart in the code.  The whole body runs under
`try/except Exception`, so a raised error leaves both trees unchanged;
`none` models that below.  The initial `merged_config =
running_config.copy()` is a shallow copy; functionally the merged result
is as if computed from `running`, and `running` is wholly replaced at
the end, so the aliasing does not affect the final state.
-/

mutual

/-- `get_full_path` inside `handle_commit`: all paths whose value is a
deletion marker (`None`), in traversal order. -/
def get_full_path (c : Config) (cur : List String) : List (List String) :=
  match c with
  | [] => []
  | (k, v) :: rest => getFullPathVal v (cur ++ [k]) ++ get_full_path rest cur

def getFullPathVal (v : Val) (path : List String) : List (List String) :=
  match v with
  | Val.tomb => [path]
  | Val.node sub => get_full_path sub path

end

/-- Split a list into its leading part and last element. -/
def splitLast : List String → Option (List String × String)
  | [] => none
  | [x] => some ([], x)
  | x :: rest => (splitLast rest).map (fun r => (x :: r.1, r.2))

/-- Functional rendering of the in-place update: replace the dict at
`path` (which the caller has already navigated successfully) by `d`. -/
def replaceAt (c : Config) : List String → Config → Config
  | [], d => d
  | k :: rest, d =>
      match getVal c k with
      | some (Val.node sub) => setKey c k (Val.node (replaceAt sub rest d))
      | _ => c

/-- The "clean up empty parent dictionaries" loop of `delete_path`
(lines 382-387): walk `parents[:-1]` from the root; at each step, read
`parent[key]` (KeyError when missing), and when it is falsy (`None` or
`{}`) delete it — after which the very next line reads the deleted key
and raises KeyError.  So the loop can only crash (`none`) or change
nothing; on the paths `delete_path` itself navigated it always finds
non-empty dicts and is a provable no-op. -/
def cleanupWalk (c : Config) : List String → Option Config
  | [] => some c
  | k :: rest =>
      match getVal c k with
      | some (Val.node (e :: es)) =>
          match cleanupWalk (e :: es) rest with
          | some _ => some c
          | none => none
      | _ => none

/-- `delete_path` inside `handle_commit` (lines 365-387): navigate to the
parent of the last segment (early return when a segment is missing or
not a dict), delete the last key if present, then run the (no-op or
crashing) empty-parent cleanup when the parent dict ended up empty. -/
def delete_path (c : Config) (path : List String) : Option Config :=
  match splitLast path with
  | none => some c
  | some (parents, last) =>
      match get_nested_value c parents with
      | none => some c
      | some d =>
          let d' := delKey d last
          let c' := replaceAt c parents d'
          if d'.isEmpty then cleanupWalk c' parents.dropLast else some c'

/-- Sequentially apply `delete_path` for every tombstoned path
(`for path in paths_to_delete`). -/
def deleteAll (c : Config) : List (List String) → Option Config
  | [] => some c
  | p :: rest =>
      match delete_path c p with
      | some c' => deleteAll c' rest
      | none => none

mutual

/-- One iteration of the `process_additions` loop body.  A `None` value
is skipped; a dict value is created as `{}` when missing and recursed
into when non-empty.  When the existing value at the key is `None`
(possible when the merged tree inherited a null), Python recurses into a
non-dict: that crashes (`TypeError`) at the first dict-valued entry of
the source subtree, and silently does nothing when every entry is a
deletion marker; an empty source subtree overwrites the `None` with
`{}` (the `elif not target_dict[key]` branch). -/
def procAddEntry (target : Config) (k : String) (v : Val) : Option Config :=
  match v with
  | Val.tomb => some target
  | Val.node sub =>
      let t0 := if hasKey target k then target else target ++ [(k, Val.node [])]
      match sub with
      | [] =>
          match getVal t0 k with
          | some (Val.node (_ :: _)) => some t0
          | _ => some (setKey t0 k (Val.node []))
      | s :: ss =>
          match getVal t0 k with
          | some (Val.node inner) =>
              match process_additions inner (s :: ss) with
              | some inner' => some (setKey t0 k (Val.node inner'))
              | none => none
          | _ =>
              if (s :: ss).all (fun e => e.2 == Val.tomb) then some t0 else none

def process_additions (target source : Config) : Option Config :=
  match source with
  | [] => some target
  | (k, v) :: rest =>
      match procAddEntry target k v with
      | some t' => process_additions t' rest
      | none => none

end

/-- The merged configuration `handle_commit` computes: deletions first,
then additions. -/
def commitMerge (running cand : Config) : Option Config :=
  match deleteAll running (get_full_path cand []) with
  | some m1 => process_additions m1 cand
  | none => none

/-- `handle_commit(running_config, candidate_config)`: on success the
running tree becomes the merged tree and the candidate is cleared —
unconditionally, with no script dispatch; an exception (caught by the
`try/except`) leaves both unchanged. -/
def handle_commit (running cand : Config) : Config × Config :=
  match commitMerge running cand with
  | some merged => (merged, [])
  | none => (running, cand)

-- Sanity: deleting the only leaf leaves the EMPTY PARENT behind (the
-- cleanup loop never fires), and the tombstone itself is skipped by
-- process_additions.
example : handle_commit [("a", Val.node [("b", Val.node [])])]
    [("a", Val.node [("b", Val.tomb)])] =
    ([("a", Val.node [])], []) := by decide

/-!
## Script selection (`get_scripts_to_run`, get_commit_scripts.py)

The schema (`config.json`) is an input document; we embed the JSON
values the function inspects: objects and strings (lists, numbers and
booleans can occur in the schema but `find_script_paths` recurses only
into dict values and the `script` values are strings, so other leaves
are inert and omitted).  The schema is passed as a parameter in place of
the `open('config.json')` read.
-/

inductive JVal where
  | str : String → JVal
  | jnode : List (String × JVal) → JVal
deriving Repr

mutual

def decEqJVal : (a b : JVal) → Decidable (a = b)
  | .str x, .str y =>
      match String.decEq x y with
      | .isTrue h => .isTrue (by rw [h])
      | .isFalse h => .isFalse (fun hh => h (by injection hh))
  | .str _, .jnode _ => .isFalse (fun h => JVal.noConfusion h)
  | .jnode _, .str _ => .isFalse (fun h => JVal.noConfusion h)
  | .jnode xs, .jnode ys =>
      match decEqJValList xs ys with
      | .isTrue h => .isTrue (by rw [h])
      | .isFalse h => .isFalse (fun hh => h (by injection hh))

def decEqJValList : (xs ys : List (String × JVal)) → Decidable (xs = ys)
  | [], [] => .isTrue rfl
  | [], _ :: _ => .isFalse (fun h => List.noConfusion h)
  | _ :: _, [] => .isFalse (fun h => List.noConfusion h)
  | (k1, v1) :: xs, (k2, v2) :: ys =>
      match String.decEq k1 k2 with
      | .isFalse h => .isFalse (fun hh => by
          injection hh with h1 h2
          exact h (congrArg Prod.fst h1))
      | .isTrue h1 =>
        match decEqJVal v1 v2 with
        | .isFalse h => .isFalse (fun hh => by
            injection hh with hh1 hh2
            exact h (congrArg Prod.snd hh1))
        | .isTrue h2 =>
          match decEqJValList xs ys with
          | .isTrue h3 => .isTrue (by rw [h1, h2, h3])
          | .isFalse h => .isFalse (fun hh => by
              injection hh with hh1 hh2
              exact h hh2)

end

instance : DecidableEq JVal := decEqJVal

abbrev Schema := List (String × JVal)

def jHasKey (c : Schema) (k : String) : Bool :=
  c.any (fun p => p.1 == k)

def jGet (c : Schema) (k : String) : Option JVal :=
  (c.find? (fun p => p.1 == k)).map (fun p => p.2)

mutual

/-- `get_candidate_paths`: EVERY key of the candidate contributes its
path — including keys whose value is a deletion marker (`None`). -/
def get_candidate_paths (c : Config) (cur : List String) : List (List String) :=
  match c with
  | [] => []
  | (k, v) :: rest =>
      ((cur ++ [k]) :: candPathsVal v (cur ++ [k])) ++ get_candidate_paths rest cur

def candPathsVal (v : Val) (path : List String) : List (List String) :=
  match v with
  | Val.tomb => []
  | Val.node sub => get_candidate_paths sub path

end

mutual

/-- `find_script_paths` on a JSON value: a dict with a `script` key
contributes its own path, then the children are scanned. -/
def fspJ (v : JVal) (cur : List String) : List (List String) :=
  match v with
  | JVal.str _ => []
  | JVal.jnode entries =>
      (if jHasKey entries "script" then [cur] else []) ++ fspEntries entries cur

def fspEntries (c : Schema) (cur : List String) : List (List String) :=
  match c with
  | [] => []
  | (k, v) :: rest => fspJ v (cur ++ [k]) ++ fspEntries rest cur

end

/-- `find_script_paths(main_config)`. -/
def find_script_paths (main : Schema) : List (List String) :=
  fspJ (JVal.jnode main) []

mutual

/-- `find_deletion_paths`: paths whose value is a deletion marker. -/
def find_deletion_paths (c : Config) (cur : List String) : List (List String) :=
  match c with
  | [] => []
  | (k, v) :: rest => fdpVal v (cur ++ [k]) ++ find_deletion_paths rest cur

def fdpVal (v : Val) (path : List String) : List (List String) :=
  match v with
  | Val.tomb => [path]
  | Val.node sub => find_deletion_paths sub path

end

/-- Walking `main_config` along a script path (`current = current[part]`;
this cannot fail for a path returned by `find_script_paths`, which only
descends through dict values). -/
def jWalk (c : Schema) : List String → Option Schema
  | [] => some c
  | p :: rest =>
      match jGet c p with
      | some (JVal.jnode sub) => jWalk sub rest
      | _ => none

/-- `if 'script' in current and current['script'] not in scripts:
scripts.append(current['script'])`. -/
def addScript (scripts : List JVal) (main : Schema) (sp : List String) : List JVal :=
  match jWalk main sp with
  | some cur =>
      match jGet cur "script" with
      | some s => if scripts.contains s then scripts else scripts ++ [s]
      | none => scripts
  | none => scripts

/-- Phase 1 (lines 62-72): a script fires when ANY candidate path —
tombstoned keys included — equals or extends its prefix.  No running
configuration check. -/
def phase1 (scripts : List JVal) (main : Schema) (candPaths : List (List String)) :
    List (List String) → List JVal
  | [] => scripts
  | sp :: rest =>
      let scripts' := if candPaths.any (fun cp => sp.isPrefixOf cp)
                      then addScript scripts main sp else scripts
      phase1 scripts' main candPaths rest

/-- `current is not None and current` after walking `running_config`
along a script path.  `none` models the `TypeError` raised when the walk
passes THROUGH a stored `None`; a `None` or missing key at or before the
end yields `False`. -/
def walkHasConfig (c : Config) : List String → Option Bool
  | [] => some (!c.isEmpty)
  | p :: rest =>
      match getVal c p with
      | none => some false
      | some (Val.node sub) => walkHasConfig sub rest
      | some Val.tomb => if rest.isEmpty then some false else none

/-- Phase 2 body for one script path (lines 94-141): scan the deletion
paths in order; the FIRST one related to the script prefix decides and
breaks.  A deletion at or below the prefix adds the script
unconditionally; a deletion strictly above it adds the script only when
the prefix holds non-empty running configuration (or unconditionally
when no running configuration was passed). -/
def phase2One (scripts : List JVal) (main : Schema) (runningQ : Option Config)
    (sp : List String) : List (List String) → Option (List JVal)
  | [] => some scripts
  | d :: rest =>
      if sp.isPrefixOf d then some (addScript scripts main sp)
      else if d.isPrefixOf sp then
        match runningQ with
        | some r =>
            (walkHasConfig r sp).map
              (fun b => if b then addScript scripts main sp else scripts)
        | none => some (addScript scripts main sp)
      else phase2One scripts main runningQ sp rest

def phase2 (scripts : List JVal) (main : Schema) (runningQ : Option Config)
    (dels : List (List String)) : List (List String) → Option (List JVal)
  | [] => some scripts
  | sp :: rest =>
      match phase2One scripts main runningQ sp dels with
      | some s' => phase2 s' main runningQ dels rest
      | none => none

/-- `get_scripts_to_run(candidate_config, running_config)`
(get_commit_scripts.py lines 3-143), with the loaded `config.json`
passed as `main`. -/
def get_scripts_to_run (main : Schema) (cand : Config) (runningQ : Option Config) :
    Option (List JVal) :=
  let candPaths := get_candidate_paths cand []
  let scriptPaths := find_script_paths main
  let s1 := phase1 [] main candPaths scriptPaths
  phase2 s1 main runningQ (find_deletion_paths cand []) scriptPaths

-- Sanity: a pure tombstone at the script prefix itself fires the script
-- through phase 1, running configuration notwithstanding.
example : get_scripts_to_run
    [("protocols", JVal.jnode [("static", JVal.jnode [("script", JVal.str "static.py")])])]
    [("protocols", Val.node [("static", Val.tomb)])]
    (some []) = some [JVal.str "static.py"] := by decide

/-!
## Command-style diff (`compare_configs`, configCli.py lines 451-534)

`get_all_paths` keys its result dict by the path joined with single
spaces and the diff re-splits it; keys originate from
whitespace-splitting the command line, so join/split is a bijection and
we carry the path lists directly.
-/

mutual

/-- `get_all_paths`: leaf traversal — a `None` value yields a tombstone
entry, an empty dict a present-leaf entry, a non-empty dict recurses. -/
def get_all_paths (c : Config) (pre : List String) : List (List String × Val) :=
  match c with
  | [] => []
  | (k, v) :: rest => gapVal v (pre ++ [k]) ++ get_all_paths rest pre

def gapVal (v : Val) (path : List String) : List (List String × Val) :=
  match v with
  | Val.tomb => [(path, Val.tomb)]
  | Val.node [] => [(path, Val.node [])]
  | Val.node (s :: ss) => get_all_paths (s :: ss) path

end

/-- The deletion list of `compare commands` (lines 492-497): for every
tombstoned candidate path, a `- delete <path>` line is emitted ONLY when
the path resolves to a non-`None` value in the running configuration. -/
def compare_deleted (running cand : Config) : List (List String) :=
  (get_all_paths cand []).filterMap (fun pv =>
    match pv.2 with
    | Val.tomb =>
        if (get_nested_value running pv.1).isSome then some pv.1 else none
    | _ => none)

example : compare_deleted [] [("a", Val.node [("b", Val.tomb)])] = [] := by decide
example : compare_deleted [("a", Val.node [("b", Val.node [])])]
    [("a", Val.node [("b", Val.tomb)])] = [["a", "b"]] := by decide

/-!
## Bounded integer validators (`validators.py` lines 53-67)

`is_num_1_65535` / `is_num_1_255` call Python `int(value)` and test the
range.  We model `int()` on ASCII strings: surrounding whitespace is
stripped, an optional sign precedes a non-empty digit sequence in which
single underscores may separate digits (PEP 515); anything else raises
`ValueError` (`none`).  (CPython also accepts some Unicode whitespace
and digits; the inputs of interest here are ASCII.)
-/

def isPyWS (ch : Char) : Bool :=
  ch == ' ' || ch == '\t' || ch == '\n' || ch == '\r' || ch == '\x0b' || ch == '\x0c'

/-- Digits after the first one: a single underscore may sit between two
digits. -/
def digitsAfter (acc : Nat) : List Char → Option Nat
  | [] => some acc
  | '_' :: c :: rest =>
      if c.isDigit then digitsAfter (acc * 10 + (c.toNat - 48)) rest else none
  | ['_'] => none
  | c :: rest =>
      if c.isDigit then digitsAfter (acc * 10 + (c.toNat - 48)) rest else none

/-- A non-empty underscore-grouped digit sequence. -/
def digitsStart : List Char → Option Nat
  | [] => none
  | c :: rest => if c.isDigit then digitsAfter (c.toNat - 48) rest else none

/-- Python `int(s)` for a string argument. -/
def pyInt (s : String) : Option Int :=
  let cs := ((s.toList.dropWhile isPyWS).reverse.dropWhile isPyWS).reverse
  match cs with
  | '+' :: rest => (digitsStart rest).map Int.ofNat
  | '-' :: rest => (digitsStart rest).map (fun n => -(Int.ofNat n))
  | _ => (digitsStart cs).map Int.ofNat

/-- `is_num_1_65535(value)`. -/
def is_num_1_65535 (s : String) : Bool :=
  match pyInt s with
  | some v => decide (1 ≤ v) && decide (v ≤ 65535)
  | none => false

/-- `is_num_1_255(value)`. -/
def is_num_1_255 (s : String) : Bool :=
  match pyInt s with
  | some v => decide (1 ≤ v) && decide (v ≤ 255)
  | none => false

example : is_num_1_255 "255" = true := by decide
example : is_num_1_255 "256" = false := by decide
example : is_num_1_255 "2_5" = true := by decide
example : is_num_1_65535 " 42 " = true := by decide
example : is_num_1_255 "2__5" = false := by decide
example : is_num_1_255 "_25" = false := by decide
example : is_num_1_255 "25_" = false := by decide
example : is_num_1_255 "+7" = true := by decide
example : is_num_1_255 "-7" = false := by decide
example : is_num_1_255 "" = false := by decide

/-!
## Statement vocabulary

Derived predicates used only to state and prove the theorems below (not
translations of source functions).
-/

/-- The tree holds the key chain `P` with dict nodes along the way and a
tombstone exactly at the leaf — the shape `mark_for_deletion` leaves
behind. -/
def tombChainAt (c : Config) : List String → Bool
  | [] => false
  | [p] => getVal c p == some Val.tomb
  | p :: rest =>
      match getVal c p with
      | some (Val.node sub) => tombChainAt sub rest
      | _ => false

/-- No dict on the way down `P` (the value at each proper non-empty
prefix of `P`) contains the key `"next-hop"`, so the merge's wholesale
assignment special case never fires along `P`. -/
def noNextHopAlong (c : Config) : List String → Bool
  | [] => true
  | [_] => true
  | p :: rest =>
      match getVal c p with
      | some (Val.node sub) => !(hasKey sub "next-hop") && noNextHopAlong sub rest
      | _ => true

/-- Every proper non-empty prefix of `P` is either absent from the tree
or maps to a NON-EMPTY dict: deleting `P` left no empty parent behind
on its chain. -/
def prefixesPruned (m : Config) : List String → Bool
  | [] => true
  | [_] => true
  | p :: rest =>
      match getVal m p with
      | none => true
      | some (Val.node sub) => !sub.isEmpty && prefixesPruned sub rest
      | some Val.tomb => false


/-! ## Dictionary lemmas -/

theorem hasKey_cons (k1 : String) (v1 : Val) (tl : Config) (k : String) :
    hasKey ((k1, v1) :: tl) k = ((k1 == k) || hasKey tl k) := by
  simp [hasKey]

theorem getVal_cons (k1 : String) (v1 : Val) (tl : Config) (k : String) :
    getVal ((k1, v1) :: tl) k = if k1 = k then some v1 else getVal tl k := by
  by_cases hk : k1 = k
  · simp [getVal, List.find?, hk]
  · simp [getVal, List.find?, hk, beq_eq_false_iff_ne.mpr hk]

theorem setKey_cons (k1 : String) (v1 : Val) (tl : Config) (k : String) (v : Val) :
    setKey ((k1, v1) :: tl) k v =
      if k1 = k then (k, v) :: tl.map (fun p => if p.1 == k then (k, v) else p)
      else (k1, v1) :: setKey tl k v := by
  by_cases hk : k1 = k
  · subst hk
    simp [setKey, hasKey_cons]
  · have hb : (k1 == k) = false := beq_eq_false_iff_ne.mpr hk
    by_cases ht : hasKey tl k = true
    · simp [setKey, hasKey_cons, hb, ht, hk]
    · simp only [Bool.not_eq_true] at ht
      simp [setKey, hasKey_cons, hb, ht, hk]

theorem setKey_map_eq (tl : Config) (k : String) (v : Val) (ht : hasKey tl k = true) :
    setKey tl k v = tl.map (fun p => if p.1 == k then (k, v) else p) := by
  simp [setKey, ht]

theorem delKey_cons (k1 : String) (v1 : Val) (tl : Config) (k : String) :
    delKey ((k1, v1) :: tl) k =
      if k1 = k then delKey tl k else (k1, v1) :: delKey tl k := by
  by_cases hk : k1 = k
  · simp [delKey, List.filter, bne, beq_iff_eq.mpr hk, hk]
  · simp [delKey, List.filter, bne, beq_eq_false_iff_ne.mpr hk, hk]

theorem hasKey_eq_isSome (c : Config) (k : String) : hasKey c k = (getVal c k).isSome := by
  induction c with
  | nil => simp [hasKey, getVal]
  | cons hd tl ih =>
      cases hd with
      | mk k1 v1 =>
          rw [hasKey_cons, getVal_cons]
          by_cases hk : k1 = k
          · simp [hk]
          · simp [hk, beq_eq_false_iff_ne.mpr hk, ih]

theorem map_noKey (c : Config) (k : String) (v : Val) (h : hasKey c k = false) :
    c.map (fun p => if p.1 == k then (k, v) else p) = c := by
  induction c with
  | nil => rfl
  | cons hd tl ih =>
      cases hd with
      | mk k1 v1 =>
          rw [hasKey_cons] at h
          simp only [Bool.or_eq_false_iff] at h
          simp only [List.map_cons, h.1, if_false, ih h.2, Bool.false_eq_true]

theorem getVal_setKey_self (c : Config) (k : String) (v : Val) :
    getVal (setKey c k v) k = some v := by
  induction c with
  | nil => simp [setKey, hasKey, getVal, List.find?]
  | cons hd tl ih =>
      cases hd with
      | mk k1 v1 =>
          rw [setKey_cons]
          by_cases hk : k1 = k
          · simp [hk, getVal_cons]
          · simp [hk, getVal_cons, ih]

theorem getVal_mapSet_ne (tl : Config) (k k' : String) (v : Val) (h : k ≠ k') :
    getVal (tl.map (fun p => if p.1 == k' then (k', v) else p)) k = getVal tl k := by
  induction tl with
  | nil => rfl
  | cons hd tl ih =>
      cases hd with
      | mk k1 v1 =>
          by_cases hk : k1 = k'
          · subst hk
            simp only [List.map_cons, beq_self_eq_true, if_true]
            rw [getVal_cons, getVal_cons, if_neg (fun hh => h hh.symm),
                if_neg (fun hh => h (hh.symm.trans rfl)), ih]
          · simp only [List.map_cons, beq_eq_false_iff_ne.mpr hk, Bool.false_eq_true, if_false]
            rw [getVal_cons, getVal_cons, ih]

theorem getVal_setKey_ne (c : Config) (k k' : String) (v : Val) (h : k ≠ k') :
    getVal (setKey c k' v) k = getVal c k := by
  induction c with
  | nil =>
      simp [setKey, hasKey, getVal, List.find?, beq_eq_false_iff_ne.mpr (fun hh => h hh.symm)]
  | cons hd tl ih =>
      cases hd with
      | mk k1 v1 =>
          rw [setKey_cons]
          by_cases hk : k1 = k'
          · subst hk
            rw [if_pos rfl, getVal_cons, getVal_cons, if_neg (fun hh => h hh.symm),
                if_neg fun hh => h hh.symm]
            exact getVal_mapSet_ne tl k k1 v h
          · rw [if_neg hk, getVal_cons, getVal_cons, ih]

theorem getVal_delKey_self (c : Config) (k : String) : getVal (delKey c k) k = none := by
  induction c with
  | nil => rfl
  | cons hd tl ih =>
      cases hd with
      | mk k1 v1 =>
          rw [delKey_cons]
          by_cases hk : k1 = k
          · rw [if_pos hk]; exact ih
          · rw [if_neg hk, getVal_cons, if_neg hk]; exact ih

theorem getVal_delKey_ne (c : Config) (k k' : String) (h : k ≠ k') :
    getVal (delKey c k') k = getVal c k := by
  induction c with
  | nil => rfl
  | cons hd tl ih =>
      cases hd with
      | mk k1 v1 =>
          rw [delKey_cons]
          by_cases hk : k1 = k'
          · subst hk
            rw [if_pos rfl, ih, getVal_cons, if_neg (fun hh => h hh.symm)]
          · rw [if_neg hk, getVal_cons, getVal_cons, ih]

/-! ## Well-formedness lemmas -/

theorem WF_cons (k : String) (v : Val) (rest : Config) :
    WF ((k, v) :: rest) = (!(hasKey rest k) && WFv v && WF rest) := by
  cases v with
  | tomb => simp [WF, WFv]
  | node sub => simp [WF, WFv]

theorem WF_getVal (c : Config) (k : String) (v : Val)
    (hwf : WF c = true) (hg : getVal c k = some v) : WFv v = true := by
  induction c with
  | nil => simp [getVal, List.find?] at hg
  | cons hd tl ih =>
      cases hd with
      | mk k1 v1 =>
          rw [WF_cons] at hwf
          simp only [Bool.and_eq_true, Bool.not_eq_true'] at hwf
          rw [getVal_cons] at hg
          by_cases hk : k1 = k
          · rw [if_pos hk] at hg
            cases hg
            exact hwf.1.2
          · rw [if_neg hk] at hg
            exact ih hwf.2 hg

theorem hasKey_mapSet (tl : Config) (k k'' : String) (v : Val) :
    hasKey (tl.map (fun p => if p.1 == k then (k, v) else p)) k'' = hasKey tl k'' := by
  induction tl with
  | nil => rfl
  | cons hd tl ih =>
      cases hd with
      | mk k1 v1 =>
          by_cases hk : k1 = k
          · subst hk
            simp only [List.map_cons, beq_self_eq_true, if_true]
            rw [hasKey_cons, hasKey_cons, ih]
          · simp only [List.map_cons, beq_eq_false_iff_ne.mpr hk, Bool.false_eq_true, if_false]
            rw [hasKey_cons, hasKey_cons, ih]

theorem setKey_self (c : Config) (k : String) (v : Val)
    (hwf : WF c = true) (hg : getVal c k = some v) : setKey c k v = c := by
  induction c with
  | nil => simp [getVal, List.find?] at hg
  | cons hd tl ih =>
      cases hd with
      | mk k1 v1 =>
          rw [WF_cons] at hwf
          simp only [Bool.and_eq_true, Bool.not_eq_true'] at hwf
          rw [getVal_cons] at hg
          rw [setKey_cons]
          by_cases hk : k1 = k
          · rw [if_pos hk] at hg
            cases hg
            rw [if_pos hk, ← hk, map_noKey tl k1 v hwf.1.1]
          · rw [if_neg hk] at hg
            rw [if_neg hk, ih hwf.2 hg]

theorem WF_delKey (c : Config) (k : String) (hwf : WF c = true) : WF (delKey c k) = true := by
  induction c with
  | nil => exact hwf
  | cons hd tl ih =>
      cases hd with
      | mk k1 v1 =>
          rw [WF_cons] at hwf
          simp only [Bool.and_eq_true, Bool.not_eq_true'] at hwf
          rw [delKey_cons]
          by_cases hk : k1 = k
          · rw [if_pos hk]
            exact ih hwf.2
          · rw [if_neg hk, WF_cons]
            simp only [Bool.and_eq_true, Bool.not_eq_true']
            refine ⟨⟨?_, hwf.1.2⟩, ih hwf.2⟩
            rw [hasKey_eq_isSome] at hwf ⊢
            rw [getVal_delKey_ne tl k1 k hk]
            exact hwf.1.1

theorem WF_append_fresh (c : Config) (k : String) (v : Val)
    (hwf : WF c = true) (hfresh : hasKey c k = false) (hv : WFv v = true) :
    WF (c ++ [(k, v)]) = true := by
  induction c with
  | nil => simpa [WF_cons, hasKey, WF] using hv
  | cons hd tl ih =>
      cases hd with
      | mk k1 v1 =>
          rw [WF_cons] at hwf
          rw [hasKey_cons] at hfresh
          simp only [Bool.and_eq_true, Bool.not_eq_true'] at hwf
          simp only [Bool.or_eq_false_iff] at hfresh
          rw [List.cons_append, WF_cons]
          simp only [Bool.and_eq_true, Bool.not_eq_true']
          refine ⟨⟨?_, hwf.1.2⟩, ih hwf.2 hfresh.2⟩
          rw [hasKey_eq_isSome, getVal]
          rw [List.find?_append]
          have h2 := hwf.1.1
          rw [hasKey_eq_isSome] at h2
          have h1 : tl.find? (fun p => p.1 == k1) = none := by
            rcases hf : tl.find? (fun p => p.1 == k1) with _ | w
            · exact hf
            · exfalso
              simp only [getVal, hf] at h2
              simp at h2
          rw [h1]
          have hne : (k == k1) = false :=
            beq_eq_false_iff_ne.mpr (fun hh => by rw [hh] at hfresh; simp at hfresh)
          simp [List.find?, hne]

theorem WF_setKey (c : Config) (k : String) (v : Val)
    (hwf : WF c = true) (hv : WFv v = true) : WF (setKey c k v) = true := by
  induction c with
  | nil => simpa [setKey, hasKey, WF_cons, WF] using hv
  | cons hd tl ih =>
      cases hd with
      | mk k1 v1 =>
          rw [WF_cons] at hwf
          simp only [Bool.and_eq_true, Bool.not_eq_true'] at hwf
          rw [setKey_cons]
          by_cases hk : k1 = k
          · subst hk
            rw [if_pos rfl, WF_cons]
            simp only [Bool.and_eq_true, Bool.not_eq_true']
            rw [map_noKey tl k1 v hwf.1.1]
            exact ⟨⟨hwf.1.1, hv⟩, hwf.2⟩
          · rw [if_neg hk, WF_cons]
            simp only [Bool.and_eq_true, Bool.not_eq_true']
            refine ⟨⟨?_, hwf.1.2⟩, ih hwf.2⟩
            by_cases ht : hasKey tl k = true
            · rw [setKey_map_eq tl k v ht, hasKey_mapSet]
              exact hwf.1.1
            · simp only [Bool.not_eq_true] at ht
              simp only [setKey, ht, Bool.false_eq_true, if_false]
              rw [hasKey_eq_isSome, getVal, List.find?_append]
              rw [hasKey_eq_isSome] at hwf
              rcases hg : getVal tl k1 with _ | w
              · simp only [getVal] at hg
                rw [Option.map_eq_none'] at hg
                rw [hg]
                have hne : (k == k1) = false := beq_eq_false_iff_ne.mpr (fun hh => hk hh.symm)
                simp [List.find?, hne]
              · rw [hg] at hwf; simp at hwf

/-! ## Merge slot lemmas -/

theorem updateEntry_getVal_ne (e : Config) (k k' : String) (v : Val) (h : k ≠ k') :
    getVal (updateEntry e k' v) k = getVal e k := by
  cases v with
  | tomb => simpa [updateEntry] using getVal_delKey_ne e k k' h
  | node sub =>
      have hns : ∀ ns : Config,
          getVal (if ns.isEmpty then delKey e k' else setKey e k' (Val.node ns)) k =
            getVal e k := by
        intro ns
        split
        · exact getVal_delKey_ne e k k' h
        · exact getVal_setKey_ne e k k' _ h
      simpa only [updateEntry] using hns _

theorem update_getVal_notin (c : Config) (k : String) (e : Config)
    (h : hasKey c k = false) :
    getVal (update_config_dict e c) k = getVal e k := by
  induction c generalizing e with
  | nil => rfl
  | cons hd tl ih =>
      cases hd with
      | mk k1 v1 =>
          rw [hasKey_cons] at h
          simp only [Bool.or_eq_false_iff] at h
          have hk1 : k1 ≠ k := by
            intro hh; rw [hh] at h; simp at h
          rw [show update_config_dict e ((k1, v1) :: tl) =
                update_config_dict (updateEntry e k1 v1) tl from rfl]
          rw [ih (updateEntry e k1 v1) h.2]
          exact updateEntry_getVal_ne e k k1 v1 (fun hh => hk1 hh.symm)

theorem update_getVal_tomb :
    ∀ (c : Config) (k : String) (e : Config), WF c = true →
      getVal c k = some Val.tomb → getVal (update_config_dict e c) k = none := by
  intro c
  induction c with
  | nil => intro k e hwf hg; simp [getVal, List.find?] at hg
  | cons hd tl ih =>
      intro k e hwf hg
      cases hd with
      | mk k1 v1 =>
          rw [WF_cons] at hwf
          simp only [Bool.and_eq_true, Bool.not_eq_true'] at hwf
          rw [getVal_cons] at hg
          rw [show update_config_dict e ((k1, v1) :: tl) =
                update_config_dict (updateEntry e k1 v1) tl from rfl]
          by_cases hk : k1 = k
          · rw [if_pos hk] at hg
            cases hg
            subst hk
            rw [update_getVal_notin tl k1 _ hwf.1.1]
            have hue : updateEntry e k1 Val.tomb = delKey e k1 := rfl
            rw [hue]
            exact getVal_delKey_self e k1
          · rw [if_neg hk] at hg
            exact ih k (updateEntry e k1 v1) hwf.2 hg

theorem update_getVal_node :
    ∀ (c : Config) (k : String) (sub e : Config), WF c = true →
      getVal c k = some (Val.node sub) → hasKey sub "next-hop" = false →
      ∃ base, getVal (update_config_dict e c) k =
        (if (update_config_dict base sub).isEmpty then none
         else some (Val.node (update_config_dict base sub))) := by
  intro c
  induction c with
  | nil => intro k sub e hwf hg hnh; simp [getVal, List.find?] at hg
  | cons hd tl ih =>
      intro k sub e hwf hg hnh
      cases hd with
      | mk k1 v1 =>
          rw [WF_cons] at hwf
          simp only [Bool.and_eq_true, Bool.not_eq_true'] at hwf
          rw [getVal_cons] at hg
          rw [show update_config_dict e ((k1, v1) :: tl) =
                update_config_dict (updateEntry e k1 v1) tl from rfl]
          by_cases hk : k1 = k
          · rw [if_pos hk] at hg
            cases hg
            subst hk
            refine ⟨(match getVal e k1 with
                     | some (Val.node b) => b
                     | _ => []), ?_⟩
            rw [update_getVal_notin tl k1 _ hwf.1.1]
            simp only [updateEntry, hnh, Bool.false_eq_true, if_false]
            split
            · exact getVal_delKey_self e k1
            · exact getVal_setKey_self e k1 _
          · rw [if_neg hk] at hg
            exact ih k sub (updateEntry e k1 v1) hwf.2 hg hnh

/-! ## Chain and tombstone lemmas -/

theorem chainDel_singleton (q : String) (rest : List String) :
    ∃ w, chainDel (q :: rest) = [(q, w)] := by
  cases rest with
  | nil => exact ⟨Val.tomb, rfl⟩
  | cons r rs => exact ⟨Val.node (chainDel (r :: rs)), rfl⟩

theorem parseDelete_eq_chainDel (p q : String) (rest : List String) :
    parseDelete (p :: q :: rest) = chainDel (p :: q :: rest) := rfl

theorem extractPath_chainDel : ∀ P : List String, P ≠ [] → extractPath (chainDel P) = P := by
  intro P
  induction P with
  | nil => intro h; exact absurd rfl h
  | cons p rest ih =>
      intro _
      cases rest with
      | nil => rfl
      | cons q rs =>
          show extractPath [(p, Val.node (chainDel (q :: rs)))] = p :: q :: rs
          show p :: extractPathVal (Val.node (chainDel (q :: rs))) = p :: q :: rs
          rw [show extractPathVal (Val.node (chainDel (q :: rs))) =
                extractPath (chainDel (q :: rs)) from rfl]
          rw [ih (by simp)]

theorem get_nested_value_of_tombChain :
    ∀ (P : List String) (c : Config), tombChainAt c P = true → get_nested_value c P = none := by
  intro P
  induction P with
  | nil => intro c h; simp [tombChainAt] at h
  | cons p rest ih =>
      intro c h
      cases rest with
      | nil =>
          simp only [tombChainAt, beq_iff_eq] at h
          simp [get_nested_value, h]
      | cons q rs =>
          simp only [tombChainAt] at h
          rcases hg : getVal c p with _ | v
          · rw [hg] at h; simp at h
          · rw [hg] at h
            cases v with
            | tomb => simp at h
            | node sub =>
                simp only [get_nested_value, hg]
                exact ih sub h

theorem pathMem_of_tombChain :
    ∀ (P : List String) (c : Config), tombChainAt c P = true → pathMem c P = true := by
  intro P
  induction P with
  | nil => intro c h; simp [tombChainAt] at h
  | cons p rest ih =>
      intro c h
      cases rest with
      | nil =>
          simp only [tombChainAt, beq_iff_eq] at h
          simp [pathMem, h]
      | cons q rs =>
          simp only [tombChainAt] at h
          rcases hg : getVal c p with _ | v
          · rw [hg] at h; simp at h
          · rw [hg] at h
            cases v with
            | tomb => simp at h
            | node sub =>
                simp only [pathMem, hg]
                exact ih sub h

/-! ## `mark_for_deletion` lemmas -/

theorem getVal_append_fresh (c : Config) (k : String) (v : Val) (h : hasKey c k = false) :
    getVal (c ++ [(k, v)]) k = some v := by
  induction c with
  | nil => simp [getVal, List.find?]
  | cons hd tl ih =>
      cases hd with
      | mk k1 v1 =>
          rw [hasKey_cons] at h
          simp only [Bool.or_eq_false_iff] at h
          rw [List.cons_append, getVal_cons]
          have : k1 ≠ k := by intro hh; rw [hh] at h; simp at h
          rw [if_neg this]
          exact ih h.2

theorem matchOpt_id (x : Option Config) :
    (match x with
     | some c => some c
     | none => none) = x := by
  cases x <;> rfl

theorem mark_tombChain :
    ∀ (P : List String) (c c' : Config), P ≠ [] →
      mark_for_deletion c (chainDel P) = some c' → tombChainAt c' P = true := by
  intro P
  induction P with
  | nil => intro c c' h; exact absurd rfl h
  | cons p rest ih =>
      intro c c' _ hm
      cases rest with
      | nil =>
          simp only [chainDel, mark_for_deletion, markEntry] at hm
          cases hm
          simp [tombChainAt, getVal_setKey_self]
      | cons q rs =>
          rw [show chainDel (p :: q :: rs) = [(p, Val.node (chainDel (q :: rs)))] from rfl] at hm
          obtain ⟨w, hw⟩ := chainDel_singleton q rs
          rw [hw] at hm
          simp only [mark_for_deletion, markEntry] at hm
          split at hm
          · next inner1 heq =>
              injection hm with hmeq
              subst hmeq
              split at heq
              · next inner hgv =>
                  rw [matchOpt_id] at heq
                  split at heq
                  · next c1 hme =>
                      injection heq with heq2
                      subst heq2
                      have hti : tombChainAt c1 (q :: rs) = true := by
                        apply ih inner c1 (by simp)
                        rw [hw]
                        simp [mark_for_deletion, hme]
                      simp only [tombChainAt, getVal_setKey_self]
                      exact hti
                  · exact absurd heq (by simp)
              · exact absurd heq (by simp)
          · exact absurd hm (by simp)

theorem mark_WF_chain :
    ∀ (P : List String) (c c' : Config), WF c = true →
      mark_for_deletion c (chainDel P) = some c' → WF c' = true := by
  intro P
  induction P with
  | nil =>
      intro c c' hwf hm
      simp only [chainDel, mark_for_deletion] at hm
      cases hm
      exact hwf
  | cons p rest ih =>
      intro c c' hwf hm
      cases rest with
      | nil =>
          simp only [chainDel, mark_for_deletion, markEntry] at hm
          cases hm
          exact WF_setKey c p Val.tomb hwf rfl
      | cons q rs =>
          rw [show chainDel (p :: q :: rs) = [(p, Val.node (chainDel (q :: rs)))] from rfl] at hm
          obtain ⟨w, hw⟩ := chainDel_singleton q rs
          rw [hw] at hm
          simp only [mark_for_deletion, markEntry] at hm
          have hwfc1 : WF (if hasKey c p = true then c else c ++ [(p, Val.node [])]) = true := by
            split
            · exact hwf
            · next hck =>
                simp only [Bool.not_eq_true] at hck
                exact WF_append_fresh c p (Val.node []) hwf hck (by rfl)
          split at hm
          · next inner1 heq =>
              injection hm with hmeq
              subst hmeq
              split at heq
              · next inner hgv =>
                  rw [matchOpt_id] at heq
                  split at heq
                  · next c1 hme =>
                      injection heq with heq2
                      subst heq2
                      have hwfi : WF inner = true := by
                        have := WF_getVal _ p (Val.node inner) hwfc1 hgv
                        simpa [WFv] using this
                      have hwfc1' : WF c1 = true := by
                        apply ih inner c1 hwfi
                        rw [hw]
                        simp [mark_for_deletion, hme]
                      exact WF_setKey _ p (Val.node c1) hwfc1 (by simpa [WFv] using hwfc1')
                  · exact absurd heq (by simp)
              · exact absurd heq (by simp)
          · exact absurd hm (by simp)

theorem mark_idem :
    ∀ (P : List String) (c : Config), P ≠ [] → WF c = true → tombChainAt c P = true →
      mark_for_deletion c (chainDel P) = some c := by
  intro P
  induction P with
  | nil => intro c h; exact absurd rfl h
  | cons p rest ih =>
      intro c _ hwf ht
      cases rest with
      | nil =>
          simp only [tombChainAt, beq_iff_eq] at ht
          simp only [chainDel, mark_for_deletion, markEntry]
          rw [setKey_self c p Val.tomb hwf ht]
      | cons q rs =>
          simp only [tombChainAt] at ht
          rcases hg : getVal c p with _ | v
          · rw [hg] at ht; simp at ht
          · rw [hg] at ht
            cases v with
            | tomb => simp at ht
            | node sub =>
                have hck : hasKey c p = true := by
                  rw [hasKey_eq_isSome, hg]; rfl
                have hwfs : WF sub = true := by
                  have := WF_getVal c p (Val.node sub) hwf hg
                  simpa [WFv] using this
                obtain ⟨w, hw⟩ := chainDel_singleton q rs
                have hIH : mark_for_deletion sub [(q, w)] = some sub := by
                  rw [← hw]
                  exact ih sub (by simp) hwfs ht
                have hunf : mark_for_deletion sub [(q, w)] =
                    (match markEntry sub q w with
                     | some c1 => mark_for_deletion c1 []
                     | none => none) := rfl
                have hme : markEntry sub q w = some sub := by
                  rcases hms : markEntry sub q w with _ | x
                  · rw [hunf, hms] at hIH
                    exact absurd hIH (by simp)
                  · rw [hunf, hms] at hIH
                    simp only [mark_for_deletion] at hIH
                    exact hIH
                rw [show chainDel (p :: q :: rs) = [(p, Val.node (chainDel (q :: rs)))] from rfl,
                    hw]
                simp only [mark_for_deletion, markEntry, hck, if_true, hg, hme]
                rw [setKey_self c p (Val.node sub) hwf hg]

/-! ## Main merge lemma -/

theorem update_tombChain_main :
    ∀ (P : List String) (c e : Config), tombChainAt c P = true →
      noNextHopAlong c P = true → WF c = true →
      pathMem (update_config_dict e c) P = false ∧
        prefixesPruned (update_config_dict e c) P = true := by
  intro P
  induction P with
  | nil => intro c e ht; simp [tombChainAt] at ht
  | cons p rest ih =>
      intro c e ht hnh hwf
      cases rest with
      | nil =>
          simp only [tombChainAt, beq_iff_eq] at ht
          have hm := update_getVal_tomb c p e hwf ht
          constructor
          · simp [pathMem, hm]
          · simp [prefixesPruned]
      | cons q rs =>
          simp only [tombChainAt] at ht
          rcases hg : getVal c p with _ | v
          · rw [hg] at ht; simp at ht
          · rw [hg] at ht
            cases v with
            | tomb => simp at ht
            | node sub =>
                have hnh' : hasKey sub "next-hop" = false ∧
                    noNextHopAlong sub (q :: rs) = true := by
                  simp only [noNextHopAlong, hg, Bool.and_eq_true, Bool.not_eq_true'] at hnh
                  exact hnh
                have hwfs : WF sub = true := by
                  have := WF_getVal c p (Val.node sub) hwf hg
                  simpa [WFv] using this
                obtain ⟨base, hbase⟩ := update_getVal_node c p sub e hwf hg hnh'.1
                have hih := ih sub base ht hnh'.2 hwfs
                rcases hemp : (update_config_dict base sub).isEmpty with _ | _
                · rw [hemp] at hbase
                  simp only [Bool.false_eq_true, if_false] at hbase
                  constructor
                  · simp only [pathMem, hbase]
                    exact hih.1
                  · simp only [prefixesPruned, hbase]
                    simp only [hemp, Bool.not_false, Bool.true_and]
                    exact hih.2
                · rw [hemp] at hbase
                  simp only [if_true] at hbase
                  constructor
                  · simp [pathMem, hbase]
                  · simp [prefixesPruned, hbase]

/-! ## `handle_delete_command` branch analysis -/

theorem handle_delete_tombstoned_unpack (running cand : Config) (pd : Config)
    (out : DelOutcome) (c' : Config)
    (h : handle_delete_command running cand pd = some (out, c'))
    (hout : out = DelOutcome.tombstoned) :
    key_exists_in_config cand pd = false ∧ key_exists_in_config running pd = true ∧
      mark_for_deletion cand pd = some c' := by
  subst hout
  simp only [handle_delete_command] at h
  split at h
  · next hc =>
      injection h with h1
      injection h1 with h2 h3
      exact absurd h2 (by simp)
  · next hc =>
      split at h
      · next hr =>
          rcases hm : mark_for_deletion cand pd with _ | c''
          · rw [hm] at h; simp at h
          · rw [hm] at h
            rw [Option.map_some'] at h
            injection h with h1
            injection h1 with h2 h3
            subst h3
            exact ⟨by simpa using hc, by simpa using hr, rfl⟩
      · next hr =>
          injection h with h1
          injection h1 with h2 h3
          exact absurd h2 (by simp)

/-! ## Claim theorems -/

/-- C2 (counterexample): for the running configuration holding the route
`10.0.0.0/24` with next-hop `192.168.1.1`, deleting that full path
records a tombstone, yet the merged effective configuration still
CONTAINS the key path (the wholesale next-hop assignment copies the
tombstone into the merged tree instead of deleting the path), refuting
"P is absent" as stated. -/
theorem c2_counterexample :
    handle_delete_command
        [("protocols", Val.node [("static", Val.node [("route", Val.node
          [("10.0.0.0/24", Val.node [("next-hop", Val.node
            [("192.168.1.1", Val.node [])])])])])])]
        []
        (parseDelete ["protocols", "static", "route", "10.0.0.0/24",
          "next-hop", "192.168.1.1"]) =
      some (DelOutcome.tombstoned,
        chainDel ["protocols", "static", "route", "10.0.0.0/24",
          "next-hop", "192.168.1.1"]) ∧
    pathMem
        (update_config_dict
          [("protocols", Val.node [("static", Val.node [("route", Val.node
            [("10.0.0.0/24", Val.node [("next-hop", Val.node
              [("192.168.1.1", Val.node [])])])])])])]
          (chainDel ["protocols", "static", "route", "10.0.0.0/24",
            "next-hop", "192.168.1.1"]))
        ["protocols", "static", "route", "10.0.0.0/24", "next-hop", "192.168.1.1"] =
      true := by
  decide

/-- C2 (amended): for every path P and candidate for which `deletePath(P)`
records a tombstone (so P is present in running and invisible in the
candidate), PROVIDED no dict on the candidate's way down P contains the
key "next-hop" (the merge's wholesale-assignment special case), merging
the candidate onto running yields a tree in which the key path P is
absent, and every proper prefix of P is either absent or maps to a
non-empty subtree (now-empty parents are pruned). -/
theorem c2_amended (running cand0 cand1 : Config) (P : List String)
    (hwf : WF cand0 = true)
    (hdel : handle_delete_command running cand0 (parseDelete P) =
      some (DelOutcome.tombstoned, cand1))
    (hnh : noNextHopAlong cand1 P = true) :
    pathMem (update_config_dict running cand1) P = false ∧
      prefixesPruned (update_config_dict running cand1) P = true := by
  obtain ⟨hc, hr, hm⟩ := handle_delete_tombstoned_unpack running cand0 _ _ _ hdel rfl
  cases P with
  | nil =>
      exfalso
      simp [parseDelete, key_exists_in_config, extractPath, get_nested_value] at hc
  | cons p rest =>
      cases rest with
      | nil =>
          exfalso
          simp [parseDelete, key_exists_in_config, extractPath, get_nested_value] at hc
      | cons q rs =>
          rw [parseDelete_eq_chainDel] at hm
          have ht := mark_tombChain (p :: q :: rs) cand0 cand1 (by simp) hm
          have hwf1 := mark_WF_chain (p :: q :: rs) cand0 cand1 hwf hm
          exact update_tombChain_main (p :: q :: rs) cand1 running ht hnh hwf1

/-- Witness for the amended C2 at a concrete input: running holds
`a b`, the candidate tombstones it, and the merge removes both the leaf
and the now-empty parent. -/
theorem c2_amended_witness :
    pathMem (update_config_dict [("a", Val.node [("b", Val.node [])])]
        [("a", Val.node [("b", Val.tomb)])]) ["a", "b"] = false ∧
      prefixesPruned (update_config_dict [("a", Val.node [("b", Val.node [])])]
        [("a", Val.node [("b", Val.tomb)])]) ["a", "b"] = true :=
  c2_amended [("a", Val.node [("b", Val.node [])])] [] [("a", Val.node [("b", Val.tomb)])]
    ["a", "b"] (by decide) (by decide) (by decide)

/-- C8: deleting an already-tombstoned path a second time reports no
error and leaves the candidate unchanged.  (In the code the second call
does not even see the tombstone — `key_exists_in_config` returns False
for a stored `None` — it re-takes the running-config branch and
re-writes the same tombstone.) -/
theorem c8_idempotent_delete (running cand0 cand1 : Config) (P : List String)
    (hwf : WF cand0 = true)
    (hdel : handle_delete_command running cand0 (parseDelete P) =
      some (DelOutcome.tombstoned, cand1)) :
    handle_delete_command running cand1 (parseDelete P) =
      some (DelOutcome.tombstoned, cand1) := by
  obtain ⟨hc, hr, hm⟩ := handle_delete_tombstoned_unpack running cand0 _ _ _ hdel rfl
  cases P with
  | nil =>
      exfalso
      simp [parseDelete, key_exists_in_config, extractPath, get_nested_value] at hc
  | cons p rest =>
      cases rest with
      | nil =>
          exfalso
          simp [parseDelete, key_exists_in_config, extractPath, get_nested_value] at hc
      | cons q rs =>
          rw [parseDelete_eq_chainDel] at hm
          have ht := mark_tombChain (p :: q :: rs) cand0 cand1 (by simp) hm
          have hwf1 := mark_WF_chain (p :: q :: rs) cand0 cand1 hwf hm
          have h1 : key_exists_in_config cand1 (chainDel (p :: q :: rs)) = false := by
            unfold key_exists_in_config
            rw [extractPath_chainDel _ (by simp),
                get_nested_value_of_tombChain _ _ ht]
            rfl
          have h2 : mark_for_deletion cand1 (chainDel (p :: q :: rs)) = some cand1 :=
            mark_idem _ _ (by simp) hwf1 ht
          rw [parseDelete_eq_chainDel] at hr ⊢
          simp only [handle_delete_command, h1, Bool.false_eq_true, if_false, hr, if_true,
            h2, Option.map_some']

/-- Witness for C8 at a concrete input. -/
theorem c8_idempotent_delete_witness :
    handle_delete_command [("a", Val.node [("b", Val.node [])])]
        [("a", Val.node [("b", Val.tomb)])] (parseDelete ["a", "b"]) =
      some (DelOutcome.tombstoned, [("a", Val.node [("b", Val.tomb)])]) :=
  c8_idempotent_delete [("a", Val.node [("b", Val.node [])])] []
    [("a", Val.node [("b", Val.tomb)])] ["a", "b"] (by decide) (by decide)

/-- C5 (counterexample): for the single-segment path `protocols`, absent
from both (empty) trees, the delete command parses to an EMPTY dict, so
`key_exists_in_config` is trivially true on the candidate and the call
takes the candidate branch (reporting "no path specified"), NOT the
`PathNotFoundError` report the claim requires.  The trees are still
unchanged. -/
theorem c5_counterexample :
    handle_delete_command [] [] (parseDelete ["protocols"]) =
      some (DelOutcome.candBranch false, []) ∧
    DelOutcome.candBranch false ≠ DelOutcome.pathNotFound := by
  decide

/-- C5 (amended): for every path of at least two segments absent from
both the running and the candidate configuration, the delete command
reports the path-not-found error and returns the candidate unchanged
(the running tree is never written by `handle_delete_command` at all). -/
theorem c5_amended (running cand : Config) (p q : String) (rs : List String)
    (hc : get_nested_value cand (p :: q :: rs) = none)
    (hr : get_nested_value running (p :: q :: rs) = none) :
    handle_delete_command running cand (parseDelete (p :: q :: rs)) =
      some (DelOutcome.pathNotFound, cand) := by
  have he : extractPath (parseDelete (p :: q :: rs)) = p :: q :: rs := by
    rw [parseDelete_eq_chainDel]
    exact extractPath_chainDel _ (by simp)
  simp only [handle_delete_command, key_exists_in_config, he, hc, hr]
  rfl

/-- Witness for the amended C5 at a concrete input. -/
theorem c5_amended_witness :
    handle_delete_command [] [] (parseDelete ["a", "b"]) =
      some (DelOutcome.pathNotFound, []) :=
  c5_amended [] [] "a" "b" [] (by decide) (by decide)

/-- C7: the command-style diff's deletion list never reports a tombstone
whose path is absent from running, and every reported deletion is a
tombstoned candidate leaf path that resolves in running. -/
theorem c7_diff_suppression (running cand : Config) (P : List String) :
    (get_nested_value running P = none → P ∉ compare_deleted running cand) ∧
    (P ∈ compare_deleted running cand →
      (P, Val.tomb) ∈ get_all_paths cand [] ∧
        (get_nested_value running P).isSome = true) := by
  constructor
  · intro hn hmem
    unfold compare_deleted at hmem
    rw [List.mem_filterMap] at hmem
    obtain ⟨pv, hpv, hf⟩ := hmem
    rcases pv with ⟨path, v⟩
    cases v with
    | tomb =>
        simp only at hf
        by_cases hs : (get_nested_value running path).isSome = true
        · rw [if_pos hs] at hf
          injection hf with he
          subst he
          rw [hn] at hs
          simp at hs
        · rw [if_neg hs] at hf
          exact Option.noConfusion hf
    | node s => exact Option.noConfusion hf
  · intro hmem
    unfold compare_deleted at hmem
    rw [List.mem_filterMap] at hmem
    obtain ⟨pv, hpv, hf⟩ := hmem
    rcases pv with ⟨path, v⟩
    cases v with
    | tomb =>
        simp only at hf
        by_cases hs : (get_nested_value running path).isSome = true
        · rw [if_pos hs] at hf
          injection hf with he
          subst he
          exact ⟨hpv, hs⟩
        · rw [if_neg hs] at hf
          exact Option.noConfusion hf
    | node s => exact Option.noConfusion hf

/-- Witness for C7 at a concrete input: a tombstone for `a b` with an
empty running configuration produces no deletion line. -/
theorem c7_diff_suppression_witness :
    ["a", "b"] ∉ compare_deleted [] [("a", Val.node [("b", Val.tomb)])] :=
  (c7_diff_suppression [] [("a", Val.node [("b", Val.tomb)])] ["a", "b"]).1 (by decide)

/-- C9: when the candidate value under a key contains the key
`"next-hop"`, `update_config_dict` replaces the whole existing subtree
at that key with the candidate subtree instead of deep-merging. -/
theorem c9_nexthop_wholesale (e : Config) (k : String) (sub : Config)
    (h : hasKey sub "next-hop" = true) :
    getVal (update_config_dict e [(k, Val.node sub)]) k = some (Val.node sub) := by
  have hne : sub.isEmpty = false := by
    cases sub with
    | nil => simp [hasKey] at h
    | cons s ss => rfl
  show getVal (update_config_dict (updateEntry e k (Val.node sub)) []) k = some (Val.node sub)
  rw [show update_config_dict (updateEntry e k (Val.node sub)) [] =
        updateEntry e k (Val.node sub) from rfl]
  simp only [updateEntry, h, if_true, hne, Bool.false_eq_true, if_false]
  exact getVal_setKey_self e k (Val.node sub)

/-- Witness for C9: staging a second next-hop for a route that already
holds one discards the previous next-hop content wholesale. -/
theorem c9_nexthop_wholesale_witness :
    getVal (update_config_dict
        [("10.0.0.0/24", Val.node [("next-hop", Val.node [("1.1.1.1", Val.node [])])])]
        [("10.0.0.0/24", Val.node [("next-hop", Val.node [("2.2.2.2", Val.node [])])])])
      "10.0.0.0/24" =
    some (Val.node [("next-hop", Val.node [("2.2.2.2", Val.node [])])]) :=
  c9_nexthop_wholesale
    [("10.0.0.0/24", Val.node [("next-hop", Val.node [("1.1.1.1", Val.node [])])])]
    "10.0.0.0/24" [("next-hop", Val.node [("2.2.2.2", Val.node [])])] (by decide)

/-- C10: the bounded range validators accept exactly the strings Python's
`int()` parses to a value in range — which includes strings that are not
plain digit sequences, such as the underscore-grouped `2_5` and the
whitespace-padded ` 42 `. -/
theorem c10_validators :
    (∀ s : String, is_num_1_255 s = true ↔ ∃ v, pyInt s = some v ∧ 1 ≤ v ∧ v ≤ 255) ∧
    (∀ s : String, is_num_1_65535 s = true ↔ ∃ v, pyInt s = some v ∧ 1 ≤ v ∧ v ≤ 65535) ∧
    is_num_1_255 "2_5" = true ∧ "2_5".toList.all Char.isDigit = false ∧
    is_num_1_65535 " 42 " = true ∧ " 42 ".toList.all Char.isDigit = false ∧
    is_num_1_255 " 42 " = true := by
  refine ⟨?_, ?_, by decide, by decide, by decide, by decide, by decide⟩
  · intro s
    unfold is_num_1_255
    rcases hp : pyInt s with _ | v
    · simp
    · simp [hp, and_assoc]
  · intro s
    unfold is_num_1_65535
    rcases hp : pyInt s with _ | v
    · simp
    · simp [hp, and_assoc]

/-- C1: `handle_commit` invokes no script whatsoever and applies the
commit unconditionally: at an input where the spec requires a failing
bound script to abort the commit (a staged static route under the
`protocols static` script binding), running is replaced by the merged
tree and the candidate is cleared. -/
theorem c1_commit_applies_unconditionally :
    handle_commit []
        [("protocols", Val.node [("static", Val.node [("route", Val.node
          [("10.0.0.0/24", Val.node [("next-hop", Val.node
            [("10.0.0.1", Val.node [])])])])])])] =
      ([("protocols", Val.node [("static", Val.node [("route", Val.node
          [("10.0.0.0/24", Val.node [("next-hop", Val.node
            [("10.0.0.1", Val.node [])])])])])])], []) ∧
    ([("protocols", Val.node [("static", Val.node [("route", Val.node
        [("10.0.0.0/24", Val.node [("next-hop", Val.node
          [("10.0.0.1", Val.node [])])])])])])] : Config) ≠ [] := by
  decide

/-- C3: the set/delete round trip does NOT leave the candidate empty.
Starting from an empty candidate, `set protocols static route
10.0.0.0/24 next-hop 192.168.1.1` stages the full chain; the following
delete of the same path retracts only the leaf
(`delete_from_config_dict`'s "Clean up empty parent dictionaries"
comment has no implementing code), leaving the intermediate segments —
ending in an empty `next-hop` dict — in the candidate. -/
theorem c3_roundtrip_leaves_residue :
    update_config_dict []
        (parseSet ["protocols", "static", "route", "10.0.0.0/24",
          "next-hop", "192.168.1.1"]) =
      [("protocols", Val.node [("static", Val.node [("route", Val.node
        [("10.0.0.0/24", Val.node [("next-hop", Val.node
          [("192.168.1.1", Val.node [])])])])])])] ∧
    handle_delete_command []
        [("protocols", Val.node [("static", Val.node [("route", Val.node
          [("10.0.0.0/24", Val.node [("next-hop", Val.node
            [("192.168.1.1", Val.node [])])])])])])]
        (parseDelete ["protocols", "static", "route", "10.0.0.0/24",
          "next-hop", "192.168.1.1"]) =
      some (DelOutcome.candBranch true,
        [("protocols", Val.node [("static", Val.node [("route", Val.node
          [("10.0.0.0/24", Val.node [("next-hop", Val.node [])])])])])]) ∧
    ([("protocols", Val.node [("static", Val.node [("route", Val.node
        [("10.0.0.0/24", Val.node [("next-hop", Val.node [])])])])])] : Config) ≠ [] := by
  decide

/-- C6: a plain `set` stages NOTHING: the empty-dict cleanup in
`update_config_dict` deletes the just-created leaf and cascades up, so
the candidate is left empty and the path absent; moreover a `set` onto
a previously tombstoned path erases the tombstone without staging the
path. -/
theorem c6_set_stages_nothing :
    update_config_dict [] (parseSet ["protocols", "bgp", "65000"]) = [] ∧
    pathMem (update_config_dict [] (parseSet ["protocols", "bgp", "65000"]))
      ["protocols", "bgp", "65000"] = false ∧
    update_config_dict [("protocols", Val.node [("bgp", Val.tomb)])]
      (parseSet ["protocols", "bgp"]) = [] := by
  decide

/-- C4 (counterexample): with the script bound at `protocols static`, an
empty running configuration, and a candidate holding ONLY a tombstone at
that prefix (deleting something never configured), the computed script
set nevertheless contains the binding's script: phase 1 of
`get_scripts_to_run` counts tombstoned keys as candidate paths and has
no running-configuration check. -/
theorem c4_counterexample :
    get_scripts_to_run
        [("protocols", JVal.jnode [("static", JVal.jnode
          [("script", JVal.str "static.py")])])]
        [("protocols", Val.node [("static", Val.tomb)])]
        (some []) = some [JVal.str "static.py"] := by
  decide

/-- Every path of a pure tombstone chain's candidate-path set is a
non-empty prefix of the tombstoned path. -/
theorem cand_paths_chainDel :
    ∀ (Q cur cp : List String), cp ∈ get_candidate_paths (chainDel Q) cur →
      ∃ pre, cp = cur ++ pre ∧ pre <+: Q ∧ pre ≠ [] := by
  intro Q
  induction Q with
  | nil => intro cur cp h; simp [chainDel, get_candidate_paths] at h
  | cons p rest ih =>
      intro cur cp h
      cases rest with
      | nil =>
          rw [show get_candidate_paths (chainDel [p]) cur =
              [cur ++ [p]] ++ get_candidate_paths [] cur from rfl] at h
          simp only [get_candidate_paths, List.append_nil, List.mem_singleton] at h
          exact ⟨[p], h, List.prefix_refl _, by simp⟩
      | cons q rs =>
          rw [show chainDel (p :: q :: rs) = [(p, Val.node (chainDel (q :: rs)))] from rfl] at h
          rw [show get_candidate_paths [(p, Val.node (chainDel (q :: rs)))] cur =
              ((cur ++ [p]) :: get_candidate_paths (chainDel (q :: rs)) (cur ++ [p])) ++
                get_candidate_paths [] cur from rfl] at h
          simp only [get_candidate_paths, List.append_nil, List.mem_cons] at h
          rcases h with h | h
          · exact ⟨[p], h, ⟨q :: rs, rfl⟩, by simp⟩
          · obtain ⟨pre, hcur, hpre, _⟩ := ih (cur ++ [p]) cp h
            refine ⟨p :: pre, ?_, ?_, by simp⟩
            · rw [hcur, List.append_assoc]; rfl
            · exact (List.prefix_cons_inj p).mpr hpre

/-- The deletion-path set of a pure tombstone chain is exactly the
tombstoned path. -/
theorem del_paths_chainDel :
    ∀ (Q cur : List String), Q ≠ [] →
      find_deletion_paths (chainDel Q) cur = [cur ++ Q] := by
  intro Q
  induction Q with
  | nil => intro cur h; exact absurd rfl h
  | cons p rest ih =>
      intro cur _
      cases rest with
      | nil => rfl
      | cons q rs =>
          rw [show chainDel (p :: q :: rs) = [(p, Val.node (chainDel (q :: rs)))] from rfl]
          simp only [find_deletion_paths, fdpVal, List.append_nil]
          rw [ih (cur ++ [p]) (by simp), List.append_assoc]
          rfl

/-- Phase 1 adds nothing when no candidate path matches any script
prefix. -/
theorem phase1_noop (main : Schema) (candPaths : List (List String)) :
    ∀ (sps : List (List String)) (scripts : List JVal),
      (∀ sp ∈ sps, candPaths.any (fun cp => sp.isPrefixOf cp) = false) →
      phase1 scripts main candPaths sps = scripts := by
  intro sps
  induction sps with
  | nil => intro scripts _; rfl
  | cons sp rest ih =>
      intro scripts h
      have h1 := h sp (by simp)
      simp only [phase1, h1, Bool.false_eq_true, if_false]
      exact ih scripts (fun s hs => h s (by simp [hs]))

/-- One phase-2 scan over a single deletion path leaves the script list
unchanged when the deletion is not at or below the script prefix and the
prefix holds no running configuration. -/
theorem phase2One_skip (main : Schema) (running : Config) (scripts : List JVal)
    (sp Q : List String)
    (h1 : sp.isPrefixOf Q = false)
    (h2 : Q.isPrefixOf sp = true → walkHasConfig running sp = some false) :
    phase2One scripts main (some running) sp [Q] = some scripts := by
  simp only [phase2One, h1, Bool.false_eq_true, if_false]
  rcases hq : Q.isPrefixOf sp with _ | _
  · simp only [Bool.false_eq_true, if_false]
  · simp only [if_true]
    rw [h2 hq]
    rfl

/-- Phase 2 is the identity when each script path's scan is. -/
theorem phase2_noop (main : Schema) (runningQ : Option Config)
    (dels : List (List String)) :
    ∀ (sps : List (List String)) (scripts : List JVal),
      (∀ sp ∈ sps, phase2One scripts main runningQ sp dels = some scripts) →
      phase2 scripts main runningQ dels sps = some scripts := by
  intro sps
  induction sps with
  | nil => intro scripts _; rfl
  | cons sp rest ih =>
      intro scripts h
      have h1 := h sp (by simp)
      simp only [phase2, h1]
      exact ih scripts (fun s hs => h s (by simp [hs]))

/-- C4 (amended): the never-configured suppression only works in the
parent-deletion direction.  When the candidate consists solely of a
tombstone at a path Q, a binding B fires neither through phase 1 nor
phase 2 provided B's prefix is NOT at or above Q (that would fire
unconditionally) and, when Q lies at or above the prefix, the prefix
holds no non-empty running configuration; under these conditions for
every binding, the computed script list is empty — in particular B's
script is not in it. -/
theorem c4_amended (main : Schema) (running : Config) (Q : List String) (hQ : Q ≠ [])
    (hyp : ∀ S ∈ find_script_paths main,
      S.isPrefixOf Q = false ∧
        (Q.isPrefixOf S = true → walkHasConfig running S = some false)) :
    get_scripts_to_run main (chainDel Q) (some running) = some [] := by
  rw [show get_scripts_to_run main (chainDel Q) (some running) =
      phase2 (phase1 [] main (get_candidate_paths (chainDel Q) []) (find_script_paths main))
        main (some running) (find_deletion_paths (chainDel Q) [])
        (find_script_paths main) from rfl]
  have h1 : phase1 [] main (get_candidate_paths (chainDel Q) [])
      (find_script_paths main) = [] := by
    apply phase1_noop
    intro sp hsp
    rw [List.any_eq_false]
    intro cp hcp hb
    obtain ⟨pre, hcur, hpre, _⟩ := cand_paths_chainDel Q [] cp hcp
    simp only [List.nil_append] at hcur
    subst hcur
    rw [ List.isPrefixOf_iff_prefix] at hb
    have hppq : sp <+: Q := hb.trans hpre
    rw [← List.isPrefixOf_iff_prefix] at hppq
    rw [(hyp sp hsp).1] at hppq
    exact Bool.noConfusion hppq
  rw [h1, del_paths_chainDel Q [] hQ]
  simp only [List.nil_append]
  apply phase2_noop
  intro sp hsp
  exact phase2One_skip main running [] sp Q (hyp sp hsp).1 (hyp sp hsp).2

/-- Witness for the amended C4 at a concrete input: tombstone at
`protocols`, binding at `protocols static`, empty running — no script
fires. -/
theorem c4_amended_witness :
    get_scripts_to_run
        [("protocols", JVal.jnode [("static", JVal.jnode
          [("script", JVal.str "static.py")])])]
        (chainDel ["protocols"]) (some []) = some [] :=
  c4_amended
    [("protocols", JVal.jnode [("static", JVal.jnode
      [("script", JVal.str "static.py")])])]
    [] ["protocols"] (by decide) (by decide)
